import Mathlib

set_option maxRecDepth 1000000

/-!
Verification of the core algorithms of the chicha-whois / ripe-country-list
sources: the two range→CIDR conversions (`generateCIDR` in
`ripe-country-list.go` and `generateCIDR` in `chicha-whois.go`), the nested
CIDR elimination (`filterRedundantCIDRs` with `cidrContains` / `lastIP` in
`chicha-whois.go`), and the keyword/country record matcher
(`extractCIDRsByKeywordsAndCountry` in `chicha-whois.go`).

IPv4 addresses are modelled as natural numbers below `2 ^ 32`; every Go
`uint32` operation is embedded as an explicitly truncated operation on `Nat`.
Bitwise operations are defined by a structural 32-step recursion over the
binary digits, which is exactly the behaviour of the machine operations on
32-bit words and keeps every definition kernel-computable.  Strings are
modelled as `List Char`.  The non-terminating loop of the multi-block
`generateCIDR` is modelled with explicit fuel returning `Option`.
-/

/-! ## 32-bit machine arithmetic -/

/-- Bitwise combination of the low `fuel` binary digits of two naturals with
the boolean function `f`.  With `fuel = 32` this is the corresponding Go
`uint32` bitwise operation. -/
def bitop (f : Bool → Bool → Bool) : Nat → Nat → Nat → Nat
  | 0, _, _ => 0
  | fuel + 1, n, m =>
    (if f (n % 2 == 1) (m % 2 == 1) then 1 else 0) + 2 * bitop f fuel (n / 2) (m / 2)

/-- Go `uint32` bitwise AND (`&`). -/
def land32 (a b : Nat) : Nat := bitop Bool.and 32 a b

/-- Go `uint32` bitwise OR (`|`). -/
def lor32 (a b : Nat) : Nat := bitop Bool.or 32 a b

/-- Go `uint32` bitwise XOR (`^` binary); `lxor32 a 0xFFFFFFFF` is the unary
complement `^a`. -/
def lxor32 (a b : Nat) : Nat := bitop Bool.xor 32 a b

/-- Go `uint32` left shift (`<<`): multiply by `2 ^ n` and truncate to 32
bits.  A shift count `≥ 32` yields `0`, as in Go. -/
def shl32 (a n : Nat) : Nat := a * 2 ^ n % 2 ^ 32

/-- Go `uint32` addition with wrap-around. -/
def add32 (a b : Nat) : Nat := (a + b) % 2 ^ 32

/-- Go `uint32` subtraction with wrap-around (for `b ≤ 2 ^ 32`). -/
def sub32 (a b : Nat) : Nat := (a + (2 ^ 32 - b)) % 2 ^ 32

/-- The network mask of a prefix length `p`, exactly as both Go sources
compute it: `0xFFFFFFFF << (32 - p)` on `uint32` (this is also what
`net.CIDRMask(p, 32)` denotes numerically). -/
def mask32 (p : Nat) : Nat := shl32 0xFFFFFFFF (32 - p)

/-! ## `generateCIDR` of `ripe-country-list.go` (multi-block decomposition)

The Go source, for `start ≤ end`, repeatedly shrinks a candidate block size
(`maxSize` counts prefix bits, starting at 32 = a /32 block) while the block
based at `start` is aligned and its broadcast does not pass `end`, emits
`start/maxSize`, and advances `start` by the block size with `uint32`
wrap-around. -/

/-- Both conditions under which the inner `for maxSize > 0` loop of
`generateCIDR` (ripe-country-list.go) keeps shrinking the prefix: the masked
base equals `start` and the broadcast of the candidate block does not exceed
`end`. -/
def okCheck (start e m : Nat) : Bool :=
  let mask := mask32 m
  let maskedBase := land32 start mask
  maskedBase == start && decide (lor32 maskedBase (lxor32 mask 0xFFFFFFFF) ≤ e)

/-- The inner loop of `generateCIDR` (ripe-country-list.go): starting from
the current candidate `maxSize` it decrements while `okCheck` holds and
returns the exit value of the Go variable `maxSize` (the emitted prefix
length is this value plus one, from the `maxSize++` after the loop). -/
def innerLoop (start e : Nat) : Nat → Nat
  | 0 => 0
  | m + 1 => if okCheck start e (m + 1) then innerLoop start e m else m + 1

/-- The outer `for start <= end` loop of `generateCIDR`
(ripe-country-list.go), with explicit fuel: each pass emits the block
`(start, maxSize)` and advances `start` by `1 << (32 - maxSize)` in `uint32`
arithmetic.  `none` means the fuel ran out before the loop exited. -/
def genLoop (e : Nat) : Nat → Nat → List (Nat × Nat) → Option (List (Nat × Nat))
  | 0, _, _ => none
  | fuel + 1, start, acc =>
    if start ≤ e then
      let m := innerLoop start e 32 + 1
      genLoop e fuel (add32 start (shl32 1 (32 - m))) (acc ++ [(start, m)])
    else
      some acc

/-- `generateCIDR` of `ripe-country-list.go` on already-parsed 32-bit
addresses, as a fuelled function: `some l` is the list of emitted
`(base, prefixLength)` blocks when the loop exits within `fuel` passes. -/
def generateCIDRripe (startIP endIP fuel : Nat) : Option (List (Nat × Nat)) :=
  genLoop endIP fuel startIP []

/-! ## `generateCIDR` of `chicha-whois.go` (single best-fit XOR block) -/

/-- Length in binary digits of the low `fuel` bits of `x`
(`bitsLenAux 32 x` is Go's `bits.Len32(x)` for `x < 2 ^ 32`). -/
def bitsLenAux : Nat → Nat → Nat
  | 0, _ => 0
  | fuel + 1, x => if x = 0 then 0 else bitsLenAux fuel (x / 2) + 1

/-- Go `bits.Len32`: the minimal number of bits to represent a `uint32`. -/
def bitsLen32 (x : Nat) : Nat := bitsLenAux 32 x

/-- `generateCIDR` of `chicha-whois.go` on already-parsed 32-bit addresses:
`diff := start ^ end`, `prefixLength := 32 - bits.Len32(diff)`,
`network := start &^ ((1 << (32 - prefixLength)) - 1)` (the Go `&^` is
AND-NOT, and `1 - 1` underflows through `uint32` wrap-around when the shift
count is 32).  Returns the single block `(network, prefixLength)`. -/
def generateCIDRxor (start e : Nat) : Nat × Nat :=
  let diff := lxor32 start e
  let prefixLength := 32 - bitsLen32 diff
  let network := land32 start (lxor32 (sub32 (shl32 1 (32 - prefixLength)) 1) 0xFFFFFFFF)
  (network, prefixLength)

/-! ## `filterRedundantCIDRs` of `chicha-whois.go`

A textual CIDR `a.b.c.d/n` is modelled as the pair of its numeric address
and prefix length.  `net.ParseCIDR` masks the address with the prefix mask;
`.String()` on the result renders exactly the `(base, prefixLength)` pair, so
the string round-trip between passes is the identity on these pairs. -/

/-- The effect of `net.ParseCIDR` on a parseable IPv4 CIDR: the stored
network address is the given address masked with the prefix mask. -/
def parseCIDR (c : Nat × Nat) : Nat × Nat := (land32 c.1 (mask32 c.2), c.2)

/-- `net.IPNet.Contains` for a 4-byte network `o`: the address masked with
`o`'s mask equals `o`'s (already masked) base address. -/
def ipnetContains (o : Nat × Nat) (x : Nat) : Bool :=
  land32 x (mask32 o.2) == o.1

/-- `lastIP` of `chicha-whois.go`: the broadcast address
`(ip & mask) | ^mask` of a subnet. -/
def lastIP (b : Nat × Nat) : Nat :=
  lor32 (land32 b.1 (mask32 b.2)) (lxor32 (mask32 b.2) 0xFFFFFFFF)

/-- `cidrContains` of `chicha-whois.go`: `outer` contains `inner`'s base
address and `inner`'s broadcast address. -/
def cidrContains (outer inner : Nat × Nat) : Bool :=
  ipnetContains outer inner.1 && ipnetContains outer (lastIP inner)

/-- The total preorder in which Go's `sort.Slice` comparator of
`filterRedundantCIDRs` sorts the parsed IPv4 blocks: ascending prefix length
(wider networks first), ties broken by ascending numeric address.  Two
blocks unrelated by the strict Go comparator are equal pairs, so sorting by
this reflexive closure determines the same list of values as the Go sort. -/
def sortLE (a b : Nat × Nat) : Prop :=
  a.2 < b.2 ∨ (a.2 = b.2 ∧ a.1 ≤ b.1)

instance : DecidableRel sortLE :=
  fun a b => inferInstanceAs (Decidable (a.2 < b.2 ∨ (a.2 = b.2 ∧ a.1 ≤ b.1)))

instance : IsTotal (Nat × Nat) sortLE :=
  ⟨fun a b => by unfold sortLE; omega⟩

instance : IsTrans (Nat × Nat) sortLE :=
  ⟨fun a b c hab hbc => by unfold sortLE at *; omega⟩

instance : IsAntisymm (Nat × Nat) sortLE :=
  ⟨fun a b hab hba => by
    unfold sortLE at *
    have h1 : a.1 = b.1 := by omega
    have h2 : a.2 = b.2 := by omega
    exact Prod.ext h1 h2⟩

/-- The keeper scan of `filterRedundantCIDRs`: walk the sorted candidates,
drop a candidate contained in an already kept block, otherwise append it to
the kept list.  The returned list is the kept list in insertion order (the
Go function returns it without any further sorting). -/
def keepScan : List (Nat × Nat) → List (Nat × Nat) → List (Nat × Nat)
  | kept, [] => kept
  | kept, c :: rest =>
    if kept.any (fun k => cidrContains k c) then keepScan kept rest
    else keepScan (kept ++ [c]) rest

/-- `filterRedundantCIDRs` of `chicha-whois.go` on parseable IPv4 CIDRs:
parse (which masks each base), sort by prefix length then address, and run
the keeper scan. -/
def filterRedundantCIDRs (xs : List (Nat × Nat)) : List (Nat × Nat) :=
  keepScan [] (List.insertionSort sortLE (xs.map parseCIDR))

/-! ## Spec-level notions used to state the claims -/

/-- A well-formed parsed IPv4 CIDR block: 32-bit base, prefix length at most
32, and the base aligned to the prefix. -/
def ValidBlock (b : Nat × Nat) : Prop :=
  b.1 < 2 ^ 32 ∧ b.2 ≤ 32 ∧ b.1 % 2 ^ (32 - b.2) = 0

/-- The last address of the span of a block: `base + 2^(32-p) - 1`. -/
def spanHi (b : Nat × Nat) : Nat := b.1 + (2 ^ (32 - b.2) - 1)

/-- Block `o`'s address span `[base, broadcast]` contains block `i`'s span. -/
def spanContains (o i : Nat × Nat) : Prop :=
  o.1 ≤ i.1 ∧ spanHi i ≤ spanHi o

/-- An address `x` is covered by the block `b`. -/
def covered (x : Nat) (b : Nat × Nat) : Prop := b.1 ≤ x ∧ x ≤ spanHi b

instance (x : Nat) (b : Nat × Nat) : Decidable (covered x b) :=
  inferInstanceAs (Decidable (_ ≤ _ ∧ _ ≤ _))

/-- The multi-block `generateCIDR` of `ripe-country-list.go` terminates on
`(s, e)` with result `l` (for some amount of fuel). -/
def ripeComputes (s e : Nat) (l : List (Nat × Nat)) : Prop :=
  ∃ fuel, generateCIDRripe s e fuel = some l

/-- The interval `[s, e]` is itself an aligned power-of-two block. -/
def isAlignedRange (s e : Nat) : Prop :=
  ∃ k, k ≤ 32 ∧ s % 2 ^ k = 0 ∧ e = s + (2 ^ k - 1)

/-! ## `extractCIDRsByKeywordsAndCountry` of `chicha-whois.go`

Lines of the database are modelled as `List Char`.  Only the per-block
accept/reject decision is modelled here (file iteration and the
`inetnumToCIDR` output path are I/O glue around it). -/

/-- Go `unicode.IsSpace` restricted to the Latin-1 range, as used by
`strings.TrimSpace` and `strings.Fields`. -/
def goIsSpace (c : Char) : Bool :=
  c == ' ' || c == '\t' || c == '\n' || c == '\x0b' || c == '\x0c' || c == '\r' ||
    c == '\x85' || c == '\xa0'

/-- Go `strings.TrimSpace`: drop spaces from both ends. -/
def trimSpace (l : List Char) : List Char :=
  ((l.dropWhile goIsSpace).reverse.dropWhile goIsSpace).reverse

/-- Helper of `goFields`: split on runs of spaces, accumulating the current
word reversed. -/
def fieldsAux : List Char → List Char → List (List Char)
  | [], cur => if cur.isEmpty then [] else [cur.reverse]
  | c :: rest, cur =>
    if goIsSpace c then
      if cur.isEmpty then fieldsAux rest [] else cur.reverse :: fieldsAux rest []
    else fieldsAux rest (c :: cur)

/-- Go `strings.Fields`: the maximal runs of non-space characters. -/
def goFields (l : List Char) : List (List Char) := fieldsAux l []

/-- Go `strings.ToLower` (on the ASCII data relevant here). -/
def toLowerStr (l : List Char) : List Char := l.map Char.toLower

/-- Go `strings.ToUpper` (on the ASCII data relevant here). -/
def toUpperStr (l : List Char) : List Char := l.map Char.toUpper

/-- Go `strings.Contains`: `sub` occurs contiguously inside `text`. -/
def containsSub (text sub : List Char) : Bool :=
  match text with
  | [] => sub.isEmpty
  | _ :: rest => sub.isPrefixOf text || containsSub rest sub

/-- The per-line scan of `extractCIDRsByKeywordsAndCountry`: remember the
last trimmed line starting with `inetnum:` and the last one starting with
`country:` (the Go loop overwrites the variables on every match). -/
def scanLines : List (List Char) → List Char × List Char → List Char × List Char
  | [], acc => acc
  | l :: rest, (inetnumLine, countryLine) =>
    let trimLine := trimSpace l
    if List.isPrefixOf ("inetnum:".data) trimLine then scanLines rest (trimLine, countryLine)
    else if List.isPrefixOf ("country:".data) trimLine then scanLines rest (inetnumLine, trimLine)
    else scanLines rest (inetnumLine, countryLine)

/-- The keyword loop of `extractCIDRsByKeywordsAndCountry`: an empty keyword
is skipped with `continue`; otherwise the first keyword contained in the
block text makes the block match. -/
def anyKeyword : List (List Char) → List Char → Bool
  | [], _ => false
  | kw :: rest, text =>
    if kw.isEmpty then anyKeyword rest text
    else if containsSub text kw then true else anyKeyword rest text

/-- The accept/reject decision of `extractCIDRsByKeywordsAndCountry` for one
blank-line-delimited block: the country filter is uppercased and the
keywords lowercased on entry; a block fails if a non-empty filter finds no
`country:` line or a second field differing (case-insensitively) from the
filter; with no keywords the block is accepted, otherwise the lowercased
join of its raw lines must contain one of the non-empty keywords.
(Emission of CIDRs additionally requires an `inetnum:` line.) -/
def blockAccepted (countryCode : List Char) (keywords : List (List Char))
    (blockLines : List (List Char)) : Bool :=
  let cc := toUpperStr countryCode
  let kws := keywords.map toLowerStr
  let countryLine := (scanLines blockLines ([], [])).2
  let keywordPart :=
    if kws.isEmpty then true
    else anyKeyword kws (toLowerStr (List.intercalate ['\n'] blockLines))
  if cc.isEmpty then keywordPart
  else if countryLine.isEmpty then false
  else if (goFields countryLine).length < 2 then false
  else if toUpperStr ((goFields countryLine).getD 1 []) == cc then keywordPart
  else false

/-- The country check of the spec, phrased declaratively over the same line
scan the source performs: the block has a (last) `country:` line whose
second whitespace-separated field equals the filter up to letter case. -/
def countryMatches (countryCode : List Char) (blockLines : List (List Char)) : Prop :=
  (scanLines blockLines ([], [])).2 ≠ [] ∧
  2 ≤ (goFields (scanLines blockLines ([], [])).2).length ∧
  toUpperStr ((goFields (scanLines blockLines ([], [])).2).getD 1 []) =
    toUpperStr countryCode

instance (countryCode : List Char) (blockLines : List (List Char)) :
    Decidable (countryMatches countryCode blockLines) :=
  inferInstanceAs (Decidable (_ ≠ [] ∧ 2 ≤ _ ∧ _ = _))

/-! ## Arithmetic characterisation of the 32-bit operations -/

/-- Splitting a remainder modulo `2 * n` into the low bit and the rest. -/
theorem mod_two_mul_decomp (a n : Nat) : a % (2 * n) = a % 2 + 2 * (a / 2 % n) := by
  have h := Nat.mod_mul_right_div_self a 2 n
  have h1 : a % (2 * n) % 2 = a % 2 := Nat.mod_mod_of_dvd a ⟨n, rfl⟩
  omega

/-- The low bit of a natural, as the value of the branch taken on it. -/
theorem if_mod_two (a : Nat) : (if (a % 2 == 1) then (1 : Nat) else 0) = a % 2 := by
  rcases Nat.mod_two_eq_zero_or_one a with h | h <;> simp [h]

theorem bitop_lt (g : Bool → Bool → Bool) :
    ∀ fuel n m, bitop g fuel n m < 2 ^ fuel := by
  intro fuel
  induction fuel with
  | zero => intro n m; simp [bitop]
  | succ f ih =>
    intro n m
    have h := ih (n / 2) (m / 2)
    have hp : (2 : Nat) ^ (f + 1) = 2 * 2 ^ f := by rw [Nat.pow_succ]; ring
    simp only [bitop]
    have hif : (if g (n % 2 == 1) (m % 2 == 1) then (1 : Nat) else 0) ≤ 1 := by
      split <;> omega
    omega

theorem bitop_and_zero : ∀ fuel a, bitop Bool.and fuel a 0 = 0 := by
  intro fuel
  induction fuel with
  | zero => intro a; simp [bitop]
  | succ f ih => intro a; simp [bitop, ih]

/-- AND with a low mask of `k` ones keeps the remainder modulo `2 ^ k`. -/
theorem bitop_and_low : ∀ fuel k a, k ≤ fuel →
    bitop Bool.and fuel a (2 ^ k - 1) = a % 2 ^ k := by
  intro fuel
  induction fuel with
  | zero =>
    intro k a hk
    have hk0 : k = 0 := by omega
    subst hk0
    simp [bitop, Nat.mod_one]
  | succ f ih =>
    intro k a hk
    match k with
    | 0 => simpa [Nat.mod_one] using bitop_and_zero (f + 1) a
    | k' + 1 =>
      have hp : (2 : Nat) ^ (k' + 1) = 2 * 2 ^ k' := by rw [Nat.pow_succ]; ring
      have hpos : 0 < (2 : Nat) ^ k' := Nat.pow_pos (by omega)
      have hm2 : ((2 : Nat) ^ (k' + 1) - 1) % 2 = 1 := by omega
      have hd2 : ((2 : Nat) ^ (k' + 1) - 1) / 2 = 2 ^ k' - 1 := by omega
      simp only [bitop, hm2, hd2, ih k' (a / 2) (by omega)]
      rw [hp, mod_two_mul_decomp]
      have hb : (Bool.and (a % 2 == 1) (1 == 1)) = (a % 2 == 1) := by simp
      rw [hb, if_mod_two]

/-- AND with the mask whose bits `k … fuel-1` are set clears the low `k`
bits: the result is `a`'s low `fuel` bits rounded down to a multiple of
`2 ^ k`. -/
theorem bitop_and_high : ∀ fuel k a, k ≤ fuel →
    bitop Bool.and fuel a (2 ^ fuel - 2 ^ k) = a % 2 ^ fuel / 2 ^ k * 2 ^ k := by
  intro fuel
  induction fuel with
  | zero =>
    intro k a hk
    have hk0 : k = 0 := by omega
    subst hk0
    simp [bitop, Nat.mod_one]
  | succ f ih =>
    intro k a hk
    match k with
    | 0 =>
      have h := bitop_and_low (f + 1) (f + 1) a (by omega)
      simpa using h
    | k' + 1 =>
      have hp : (2 : Nat) ^ (k' + 1) = 2 * 2 ^ k' := by rw [Nat.pow_succ]; ring
      have hf : (2 : Nat) ^ (f + 1) = 2 * 2 ^ f := by rw [Nat.pow_succ]; ring
      have hposk : 0 < (2 : Nat) ^ k' := Nat.pow_pos (by omega)
      have hposf : 0 < (2 : Nat) ^ f := Nat.pow_pos (by omega)
      have hkf : (2 : Nat) ^ k' ≤ 2 ^ f := Nat.pow_le_pow_right (by omega) (by omega)
      have hm2 : ((2 : Nat) ^ (f + 1) - 2 ^ (k' + 1)) % 2 = 0 := by omega
      have hd2 : ((2 : Nat) ^ (f + 1) - 2 ^ (k' + 1)) / 2 = 2 ^ f - 2 ^ k' := by omega
      simp only [bitop, hm2, hd2, ih k' (a / 2) (by omega)]
      have hb : (Bool.and (a % 2 == 1) (0 == 1)) = false := by simp
      rw [hb]
      simp only [Bool.false_eq_true, if_false]
      have hY : a % 2 ^ (f + 1) / 2 = a / 2 % 2 ^ f := by
        rw [hf, mod_two_mul_decomp]; omega
      have hsplit : a % 2 ^ (f + 1) / 2 ^ (k' + 1) = a % 2 ^ (f + 1) / 2 / 2 ^ k' := by
        rw [Nat.div_div_eq_div_mul, hp]
      rw [hsplit, hY, hp]
      ring

theorem bitop_or_zero : ∀ fuel a, bitop Bool.or fuel a 0 = a % 2 ^ fuel := by
  intro fuel
  induction fuel with
  | zero => intro a; simp [bitop, Nat.mod_one]
  | succ f ih =>
    intro a
    have hf : (2 : Nat) ^ (f + 1) = 2 * 2 ^ f := by rw [Nat.pow_succ]; ring
    simp only [bitop, ih (a / 2)]
    have hb : (Bool.or (a % 2 == 1) (0 % 2 == 1)) = (a % 2 == 1) := by simp
    rw [hb, if_mod_two, hf, mod_two_mul_decomp]

/-- OR of a multiple of `2 ^ k` with the low mask of `k` ones adds the two
summands (the bit ranges are disjoint). -/
theorem bitop_or_low : ∀ fuel k a, k ≤ fuel → a % 2 ^ k = 0 →
    bitop Bool.or fuel a (2 ^ k - 1) = a % 2 ^ fuel + (2 ^ k - 1) := by
  intro fuel
  induction fuel with
  | zero =>
    intro k a hk ha
    have hk0 : k = 0 := by omega
    subst hk0
    simp [bitop, Nat.mod_one]
  | succ f ih =>
    intro k a hk ha
    match k with
    | 0 => simpa using bitop_or_zero (f + 1) a
    | k' + 1 =>
      have hp : (2 : Nat) ^ (k' + 1) = 2 * 2 ^ k' := by rw [Nat.pow_succ]; ring
      have hf : (2 : Nat) ^ (f + 1) = 2 * 2 ^ f := by rw [Nat.pow_succ]; ring
      have hposk : 0 < (2 : Nat) ^ k' := Nat.pow_pos (by omega)
      have hposf : 0 < (2 : Nat) ^ f := Nat.pow_pos (by omega)
      have hkf : (2 : Nat) ^ k' ≤ 2 ^ f := Nat.pow_le_pow_right (by omega) (by omega)
      have hsplit : a % 2 + 2 * (a / 2 % 2 ^ k') = 0 := by
        rw [← mod_two_mul_decomp, ← hp]; exact ha
      have ha2 : a % 2 = 0 := by omega
      have hahalf : a / 2 % 2 ^ k' = 0 := by omega
      have hm2 : ((2 : Nat) ^ (k' + 1) - 1) % 2 = 1 := by omega
      have hd2 : ((2 : Nat) ^ (k' + 1) - 1) / 2 = 2 ^ k' - 1 := by omega
      simp only [bitop, hm2, hd2, ih k' (a / 2) (by omega) hahalf]
      have hb : (Bool.or (a % 2 == 1) (1 == 1)) = true := by simp
      rw [hb]
      simp only [if_true]
      have hmod : a % 2 ^ (f + 1) = a % 2 + 2 * (a / 2 % 2 ^ f) := by
        rw [hf, mod_two_mul_decomp]
      omega

theorem bitop_xor_self : ∀ fuel a, bitop Bool.xor fuel a a = 0 := by
  intro fuel
  induction fuel with
  | zero => intro a; simp [bitop]
  | succ f ih => intro a; simp [bitop, ih]

theorem bitop_xor_zero_left : ∀ fuel b, bitop Bool.xor fuel 0 b = b % 2 ^ fuel := by
  intro fuel
  induction fuel with
  | zero => intro b; simp [bitop, Nat.mod_one]
  | succ f ih =>
    intro b
    have hf : (2 : Nat) ^ (f + 1) = 2 * 2 ^ f := by rw [Nat.pow_succ]; ring
    simp only [bitop, ih (b / 2)]
    have hb : (Bool.xor (0 % 2 == 1) (b % 2 == 1)) = (b % 2 == 1) := by simp
    rw [hb, if_mod_two, hf, mod_two_mul_decomp]

/-- XOR with the all-ones word of `fuel` bits is the complement within
`2 ^ fuel - 1`. -/
theorem bitop_xor_ones : ∀ fuel a, bitop Bool.xor fuel a (2 ^ fuel - 1) =
    2 ^ fuel - 1 - a % 2 ^ fuel := by
  intro fuel
  induction fuel with
  | zero => intro a; simp [bitop]
  | succ f ih =>
    intro a
    have hf : (2 : Nat) ^ (f + 1) = 2 * 2 ^ f := by rw [Nat.pow_succ]; ring
    have hposf : 0 < (2 : Nat) ^ f := Nat.pow_pos (by omega)
    have hm2 : ((2 : Nat) ^ (f + 1) - 1) % 2 = 1 := by omega
    have hd2 : ((2 : Nat) ^ (f + 1) - 1) / 2 = 2 ^ f - 1 := by omega
    simp only [bitop, hm2, hd2, ih (a / 2)]
    have hmod : a % 2 ^ (f + 1) = a % 2 + 2 * (a / 2 % 2 ^ f) := by
      rw [hf, mod_two_mul_decomp]
    have hb2 : a / 2 % 2 ^ f < 2 ^ f := Nat.mod_lt _ hposf
    rcases Nat.mod_two_eq_zero_or_one a with h2 | h2
    · have hb : (Bool.xor (a % 2 == 1) (1 == 1)) = true := by simp [h2]
      rw [hb]
      simp only [if_true]
      omega
    · have hb : (Bool.xor (a % 2 == 1) (1 == 1)) = false := by simp [h2]
      rw [hb]
      simp only [Bool.false_eq_true, if_false]
      omega

/-- XOR ignores a common high part sitting above the `k` low bits. -/
theorem bitop_xor_high : ∀ fuel k q a b, k ≤ fuel → a < 2 ^ k → b < 2 ^ k →
    bitop Bool.xor fuel (q * 2 ^ k + a) (q * 2 ^ k + b) = bitop Bool.xor k a b := by
  intro fuel
  induction fuel with
  | zero =>
    intro k q a b hk ha hb
    have hk0 : k = 0 := by omega
    subst hk0
    simp [bitop]
  | succ f ih =>
    intro k q a b hk ha hb
    match k with
    | 0 =>
      have ha0 : a = 0 := by omega
      have hb0 : b = 0 := by omega
      subst ha0; subst hb0
      simp only [pow_zero, Nat.mul_one, Nat.add_zero]
      rw [show bitop Bool.xor 0 0 0 = 0 from rfl]
      exact bitop_xor_self (f + 1) q
    | k' + 1 =>
      have hp : (2 : Nat) ^ (k' + 1) = 2 * 2 ^ k' := by rw [Nat.pow_succ]; ring
      have hq2 : q * 2 ^ (k' + 1) = 2 * (q * 2 ^ k') := by rw [hp]; ring
      have hxm : (q * 2 ^ (k' + 1) + a) % 2 = a % 2 := by omega
      have hym : (q * 2 ^ (k' + 1) + b) % 2 = b % 2 := by omega
      have hxd : (q * 2 ^ (k' + 1) + a) / 2 = q * 2 ^ k' + a / 2 := by omega
      have hyd : (q * 2 ^ (k' + 1) + b) / 2 = q * 2 ^ k' + b / 2 := by omega
      have hah : a / 2 < 2 ^ k' := by omega
      have hbh : b / 2 < 2 ^ k' := by omega
      conv_lhs => simp only [bitop]
      conv_rhs => simp only [bitop]
      rw [hxm, hym, hxd, hyd, ih k' q (a / 2) (b / 2) (by omega) hah hbh]

/-! ## Values of the shared mask expressions -/

/-- The mask `0xFFFFFFFF << (32 - p)` has the top `p` bits of the word set. -/
theorem mask32_eq (p : Nat) : mask32 p = 2 ^ 32 - 2 ^ (32 - p) := by
  unfold mask32 shl32
  have h1 : 0 < (2 : Nat) ^ (32 - p) := Nat.pow_pos (by omega)
  have h2 : (2 : Nat) ^ (32 - p) ≤ 2 ^ 32 := Nat.pow_le_pow_right (by omega) (by omega)
  omega

theorem mask32_lt (p : Nat) : mask32 p < 2 ^ 32 := by
  have h1 : 0 < (2 : Nat) ^ (32 - p) := Nat.pow_pos (by omega)
  have h := mask32_eq p
  omega

/-- The Go complement `^mask` of the prefix mask is the low mask of the
`32 - p` host bits. -/
theorem notmask32_eq (p : Nat) : lxor32 (mask32 p) 0xFFFFFFFF = 2 ^ (32 - p) - 1 := by
  unfold lxor32
  rw [show (0xFFFFFFFF : Nat) = 2 ^ 32 - 1 by norm_num]
  rw [bitop_xor_ones 32 (mask32 p)]
  rw [Nat.mod_eq_of_lt (mask32_lt p)]
  have h1 : 0 < (2 : Nat) ^ (32 - p) := Nat.pow_pos (by omega)
  have h2 : (2 : Nat) ^ (32 - p) ≤ 2 ^ 32 := Nat.pow_le_pow_right (by omega) (by omega)
  have h := mask32_eq p
  omega

/-- AND with the prefix mask rounds the low 32 bits down to a multiple of
the host-bit weight `2 ^ (32 - p)`. -/
theorem land32_mask (x p : Nat) :
    land32 x (mask32 p) = x % 2 ^ 32 / 2 ^ (32 - p) * 2 ^ (32 - p) := by
  unfold land32
  rw [mask32_eq p]
  exact bitop_and_high 32 (32 - p) x (by omega)

/-- Division followed by multiplication is the identity exactly on
multiples. -/
theorem div_mul_eq_self_iff (x m : Nat) : x / m * m = x ↔ x % m = 0 := by
  constructor
  · intro h
    have hdvd : m ∣ x := ⟨x / m, by rw [Nat.mul_comm]; exact h.symm⟩
    exact (Nat.dvd_iff_mod_eq_zero).mp hdvd
  · intro h
    exact Nat.div_mul_cancel ((Nat.dvd_iff_mod_eq_zero).mpr h)

/-- The quotient is `q` exactly when `x` lies in the window of width `m`
based at `q * m`. -/
theorem div_eq_iff_window (x q m : Nat) (hm : 0 < m) :
    x / m = q ↔ q * m ≤ x ∧ x < q * m + m := by
  constructor
  · intro h
    subst h
    refine ⟨Nat.div_mul_le_self x m, ?_⟩
    have h1 := Nat.div_add_mod x m
    have h2 : x % m < m := Nat.mod_lt _ hm
    have h3 : m * (x / m) = x / m * m := Nat.mul_comm _ _
    omega
  · intro h
    have h2 : x < (q + 1) * m := by
      have h4 : (q + 1) * m = q * m + m := by ring
      omega
    exact Nat.div_eq_of_lt_le h.1 h2

/-- A valid block's base is an exact multiple of its host-bit weight. -/
theorem validBlock_base (b : Nat × Nat) (hb : ValidBlock b) :
    b.1 / 2 ^ (32 - b.2) * 2 ^ (32 - b.2) = b.1 :=
  (div_mul_eq_self_iff b.1 _).mpr hb.2.2

/-- The span of a valid block stays inside the 32-bit space. -/
theorem spanHi_lt (b : Nat × Nat) (hb : ValidBlock b) : spanHi b < 2 ^ 32 := by
  obtain ⟨hlt, hp, hal⟩ := hb
  have hpos : 0 < (2 : Nat) ^ (32 - b.2) := Nat.pow_pos (by omega)
  have hsplit : (2 : Nat) ^ 32 = 2 ^ (32 - b.2) * 2 ^ b.2 := by
    rw [← pow_add]
    congr 1
    omega
  have hq := validBlock_base b ⟨hlt, hp, hal⟩
  have hqlt : b.1 / 2 ^ (32 - b.2) < 2 ^ b.2 := by
    by_contra hcon
    push_neg at hcon
    have h1 : 2 ^ b.2 * 2 ^ (32 - b.2) ≤ b.1 / 2 ^ (32 - b.2) * 2 ^ (32 - b.2) :=
      Nat.mul_le_mul_right _ hcon
    have h2 : (2 : Nat) ^ b.2 * 2 ^ (32 - b.2) = 2 ^ 32 := by rw [← pow_add]; congr 1; omega
    omega
  have h3 : (b.1 / 2 ^ (32 - b.2) + 1) * 2 ^ (32 - b.2) ≤ 2 ^ b.2 * 2 ^ (32 - b.2) :=
    Nat.mul_le_mul_right _ (by omega)
  have h4 : (b.1 / 2 ^ (32 - b.2) + 1) * 2 ^ (32 - b.2) =
      b.1 / 2 ^ (32 - b.2) * 2 ^ (32 - b.2) + 2 ^ (32 - b.2) := by ring
  have h5 : (2 : Nat) ^ b.2 * 2 ^ (32 - b.2) = 2 ^ 32 := by rw [← pow_add]; congr 1; omega
  unfold spanHi
  omega

/-- `net.IPNet.Contains o x` holds exactly when `x` lies in `o`'s span. -/
theorem ipnetContains_iff (o : Nat × Nat) (x : Nat) (ho : ValidBlock o)
    (hx : x < 2 ^ 32) : ipnetContains o x = true ↔ o.1 ≤ x ∧ x ≤ spanHi o := by
  obtain ⟨hlt, hp, hal⟩ := ho
  have hpos : 0 < (2 : Nat) ^ (32 - o.2) := Nat.pow_pos (by omega)
  unfold ipnetContains
  rw [beq_iff_eq, land32_mask, Nat.mod_eq_of_lt hx]
  have hq := validBlock_base o ⟨hlt, hp, hal⟩
  constructor
  · intro h
    have hdiv : x / 2 ^ (32 - o.2) = o.1 / 2 ^ (32 - o.2) := by
      have := Nat.eq_of_mul_eq_mul_right hpos (h.trans hq.symm)
      exact this
    have hw := (div_eq_iff_window x (o.1 / 2 ^ (32 - o.2)) _ hpos).mp hdiv
    unfold spanHi
    omega
  · intro h
    unfold spanHi at h
    have hdiv : x / 2 ^ (32 - o.2) = o.1 / 2 ^ (32 - o.2) := by
      rw [div_eq_iff_window x _ _ hpos]
      omega
    rw [hdiv, hq]

/-- `lastIP` of a valid block is its numeric broadcast address. -/
theorem lastIP_eq (b : Nat × Nat) (hb : ValidBlock b) : lastIP b = spanHi b := by
  obtain ⟨hlt, hp, hal⟩ := hb
  have hpos : 0 < (2 : Nat) ^ (32 - b.2) := Nat.pow_pos (by omega)
  unfold lastIP
  rw [land32_mask, Nat.mod_eq_of_lt hlt, validBlock_base b ⟨hlt, hp, hal⟩, notmask32_eq]
  unfold lor32
  rw [bitop_or_low 32 (32 - b.2) b.1 (by omega) hal, Nat.mod_eq_of_lt hlt]
  rfl

/-- `cidrContains` of the Go source decides exactly span containment on
valid blocks. -/
theorem cidrContains_iff (o i : Nat × Nat) (ho : ValidBlock o) (hi : ValidBlock i) :
    cidrContains o i = true ↔ spanContains o i := by
  unfold cidrContains
  rw [Bool.and_eq_true, ipnetContains_iff o i.1 ho hi.1, lastIP_eq i hi,
    ipnetContains_iff o (spanHi i) ho (spanHi_lt i hi)]
  have hlo : i.1 ≤ spanHi i := by unfold spanHi; omega
  unfold spanContains
  constructor
  · intro h
    exact ⟨h.1.1, h.2.2⟩
  · intro h
    exact ⟨⟨h.1, by omega⟩, ⟨by omega, h.2⟩⟩

/-! ## Behaviour of the multi-block decomposition loop -/

/-- The two break conditions of the inner loop, in arithmetic form: `start`
is aligned to the candidate block size and the block's broadcast does not
exceed `end`. -/
theorem okCheck_iff (s e m : Nat) (hs : s < 2 ^ 32) :
    okCheck s e m = true ↔ s % 2 ^ (32 - m) = 0 ∧ s + (2 ^ (32 - m) - 1) ≤ e := by
  unfold okCheck
  have hpos : 0 < (2 : Nat) ^ (32 - m) := Nat.pow_pos (by omega)
  rw [Bool.and_eq_true, beq_iff_eq, decide_eq_true_eq, land32_mask,
    Nat.mod_eq_of_lt hs, notmask32_eq]
  constructor
  · intro ⟨h1, h2⟩
    have hz := (div_mul_eq_self_iff s (2 ^ (32 - m))).mp h1
    refine ⟨hz, ?_⟩
    rw [h1] at h2
    unfold lor32 at h2
    rw [bitop_or_low 32 (32 - m) s (by omega) hz, Nat.mod_eq_of_lt hs] at h2
    exact h2
  · intro ⟨h1, h2⟩
    have heq := (div_mul_eq_self_iff s (2 ^ (32 - m))).mpr h1
    refine ⟨heq, ?_⟩
    rw [heq]
    unfold lor32
    rw [bitop_or_low 32 (32 - m) s (by omega) h1, Nat.mod_eq_of_lt hs]
    exact h2

/-- A /32 candidate always passes the checks when `start ≤ end`. -/
theorem okCheck_32 (s e : Nat) (hs : s < 2 ^ 32) (hse : s ≤ e) :
    okCheck s e 32 = true := by
  rw [okCheck_iff s e 32 hs]
  simp
  omega

theorem innerLoop_le (s e : Nat) : ∀ c, innerLoop s e c ≤ c := by
  intro c
  induction c with
  | zero => simp [innerLoop]
  | succ c ih =>
    simp only [innerLoop]
    split
    · omega
    · omega

/-- If the candidate one above `c` passed the checks, the value the loop
exits with (plus one: the emitted prefix) also passes the checks. -/
theorem innerLoop_ok (s e : Nat) : ∀ c, okCheck s e (c + 1) = true →
    okCheck s e (innerLoop s e c + 1) = true := by
  intro c
  induction c with
  | zero => intro h; simpa [innerLoop] using h
  | succ c ih =>
    intro h
    by_cases hc : okCheck s e (c + 1) = true
    · simp only [innerLoop, hc, if_true]
      exact ih hc
    · simp only [innerLoop, hc, if_false]
      exact h

/-- The exit value of the inner loop is pinned down by the first failing
candidate below a run of passing ones. -/
theorem innerLoop_eq_of (s e : Nat) : ∀ c t, t ≤ c →
    (t = 0 ∨ okCheck s e t = false) →
    (∀ j, t < j → j ≤ c → okCheck s e j = true) → innerLoop s e c = t := by
  intro c
  induction c with
  | zero =>
    intro t ht _ _
    have ht0 : t = 0 := by omega
    subst ht0
    simp [innerLoop]
  | succ c ih =>
    intro t ht hfalse hall
    by_cases hteq : t = c + 1
    · subst hteq
      rcases hfalse with h0 | hf
      · omega
      · simp [innerLoop, hf]
    · have ht' : t ≤ c := by omega
      have hok : okCheck s e (c + 1) = true := hall (c + 1) (by omega) (by omega)
      simp only [innerLoop, hok, if_true]
      exact ih t ht' hfalse (fun j h1 h2 => hall j h1 (by omega))

/-- With `end = 0xFFFFFFFF` the outer loop never exits: the advanced start
is again a 32-bit value, hence again at most `end`, for ever. -/
theorem genLoop_none_top : ∀ fuel s acc, s < 2 ^ 32 →
    genLoop 0xFFFFFFFF fuel s acc = none := by
  intro fuel
  induction fuel with
  | zero => intro s acc _; rfl
  | succ f ih =>
    intro s acc hs
    have hle : s ≤ 0xFFFFFFFF := by omega
    simp only [genLoop, if_pos hle]
    apply ih
    unfold add32
    exact Nat.mod_lt _ (by omega)

/-- The accumulator only grows along the outer loop. -/
theorem genLoop_prefix (e : Nat) : ∀ fuel s acc l,
    genLoop e fuel s acc = some l → ∃ t, l = acc ++ t := by
  intro fuel
  induction fuel with
  | zero => intro s acc l h; cases h
  | succ f ih =>
    intro s acc l h
    simp only [genLoop] at h
    split at h
    · obtain ⟨t, ht⟩ := ih _ _ _ h
      exact ⟨(s, innerLoop s e 32 + 1) :: t, by simpa using ht⟩
    · exact ⟨[], by simpa using (Option.some.injEq _ _).mp h.symm⟩

/-- Every block a terminating run of the outer loop emits passed the inner
loop's checks with a prefix length between 1 and 32. -/
theorem genLoop_blocks (e : Nat) : ∀ fuel s acc l, s < 2 ^ 32 →
    (∀ b ∈ acc, okCheck b.1 e b.2 = true ∧ 1 ≤ b.2 ∧ b.2 ≤ 32 ∧ b.1 < 2 ^ 32) →
    genLoop e fuel s acc = some l →
    ∀ b ∈ l, okCheck b.1 e b.2 = true ∧ 1 ≤ b.2 ∧ b.2 ≤ 32 ∧ b.1 < 2 ^ 32 := by
  intro fuel
  induction fuel with
  | zero => intro s acc l _ _ h; cases h
  | succ f ih =>
    intro s acc l hs hacc h
    simp only [genLoop] at h
    split at h
    case isTrue hse =>
      refine ih _ _ _ ?_ ?_ h
      · unfold add32
        exact Nat.mod_lt _ (by omega)
      · intro b hb
        rcases List.mem_append.mp hb with hb | hb
        · exact hacc b hb
        · have hb1 : b = (s, innerLoop s e 32 + 1) := by simpa using hb
          subst hb1
          have hok32 : okCheck s e 32 = true := okCheck_32 s e hs hse
          have hinner : innerLoop s e 32 = innerLoop s e 31 := by
            simp [innerLoop, hok32]
          have hle31 := innerLoop_le s e 31
          have hok := innerLoop_ok s e 31 hok32
          rw [hinner]
          exact ⟨hok, by omega, by omega, hs⟩
    case isFalse =>
      have hl : l = acc := by simpa using (Option.some.injEq _ _).mp h.symm
      subst hl
      exact hacc

/-! ## Span algebra of aligned blocks -/

theorem spanContains_refl (b : Nat × Nat) : spanContains b b :=
  ⟨Nat.le_refl _, Nat.le_refl _⟩

/-- A span can only contain the span of a block with an equal or longer
prefix (equal or smaller size). -/
theorem spanContains_size (A B : Nat × Nat) (hA : ValidBlock A) (hB : ValidBlock B)
    (h : spanContains A B) : A.2 ≤ B.2 := by
  obtain ⟨h1, h2⟩ := h
  unfold spanHi at h2
  have hposA : 0 < (2 : Nat) ^ (32 - A.2) := Nat.pow_pos (by omega)
  have hposB : 0 < (2 : Nat) ^ (32 - B.2) := Nat.pow_pos (by omega)
  have hpow : (2 : Nat) ^ (32 - B.2) ≤ 2 ^ (32 - A.2) := by omega
  have hle : 32 - B.2 ≤ 32 - A.2 := (Nat.pow_le_pow_iff_right (by omega)).mp hpow
  have hA2 := hA.2.1
  have hB2 := hB.2.1
  omega

/-- Mutual size bound makes span containment collapse to equality. -/
theorem spanContains_eq (A B : Nat × Nat) (hA : ValidBlock A) (hB : ValidBlock B)
    (h : spanContains A B) (hs : B.2 ≤ A.2) : A = B := by
  have h2 := spanContains_size A B hA hB h
  have hp : A.2 = B.2 := by omega
  obtain ⟨h1, hhi⟩ := h
  unfold spanHi at hhi
  rw [hp] at hhi
  have hbase : A.1 = B.1 := by omega
  exact Prod.ext hbase hp

/-! ## Behaviour of the keeper scan -/

/-- The scan result is the kept list followed by a sublist of the
candidates. -/
theorem keepScan_shape : ∀ rest kept, ∃ t,
    keepScan kept rest = kept ++ t ∧ t.Sublist rest := by
  intro rest
  induction rest with
  | nil => intro kept; exact ⟨[], by simp [keepScan]⟩
  | cons c rest ih =>
    intro kept
    simp only [keepScan]
    split
    · obtain ⟨t, ht, hsub⟩ := ih kept
      exact ⟨t, ht, hsub.cons c⟩
    · obtain ⟨t, ht, hsub⟩ := ih (kept ++ [c])
      refine ⟨c :: t, ?_, hsub.cons₂ c⟩
      rw [ht, List.append_assoc]
      rfl

/-- Scanning candidates sorted by ascending prefix length keeps only blocks
whose spans are pairwise incomparable (in both directions). -/
theorem keepScan_invariant : ∀ rest kept,
    (∀ b ∈ kept, ValidBlock b) → (∀ b ∈ rest, ValidBlock b) →
    kept.Pairwise (fun a b => ¬ spanContains a b ∧ ¬ spanContains b a) →
    rest.Pairwise sortLE →
    (∀ a ∈ kept, ∀ c ∈ rest, a.2 ≤ c.2) →
    (keepScan kept rest).Pairwise
      (fun a b => ¬ spanContains a b ∧ ¬ spanContains b a) := by
  intro rest
  induction rest with
  | nil => intro kept _ _ hk _ _; simpa [keepScan] using hk
  | cons c rest ih =>
    intro kept hvk hvr hk hsorted hcross
    have hvc : ValidBlock c := hvr c (by simp)
    obtain ⟨hhead, htail⟩ := List.pairwise_cons.mp hsorted
    simp only [keepScan]
    split
    case isTrue hany =>
      exact ih kept hvk (fun b hb => hvr b (by simp [hb])) hk htail
        (fun a ha d hd => hcross a ha d (by simp [hd]))
    case isFalse hany =>
      have hall : ∀ k ∈ kept, cidrContains k c = false := by
        rw [Bool.not_eq_true, List.any_eq_false] at hany
        intro k hkm
        have := hany k hkm
        revert this
        rcases cidrContains k c with _ | _ <;> simp
      have hnewpair : ∀ a ∈ kept, ¬ spanContains a c ∧ ¬ spanContains c a := by
        intro a ha
        have hva := hvk a ha
        have hfa : ¬ spanContains a c := by
          intro hspan
          have := (cidrContains_iff a c hva hvc).mpr hspan
          rw [hall a ha] at this
          cases this
        refine ⟨hfa, ?_⟩
        intro hspan
        have hsz : a.2 ≤ c.2 := hcross a ha c (by simp)
        have heq : c = a := spanContains_eq c a hvc hva hspan hsz
        exact hfa (heq ▸ hspan)
      refine ih (kept ++ [c]) ?_ (fun b hb => hvr b (by simp [hb])) ?_ htail ?_
      · intro b hb
        rcases List.mem_append.mp hb with hb | hb
        · exact hvk b hb
        · have : b = c := by simpa using hb
          subst this
          exact hvc
      · rw [List.pairwise_append]
        refine ⟨hk, by simp, ?_⟩
        intro a ha b hb
        have : b = c := by simpa using hb
        subst this
        exact hnewpair a ha
      · intro a ha d hd
        rcases List.mem_append.mp ha with ha | ha
        · exact hcross a ha d (by simp [hd])
        · have : a = c := by simpa using ha
          subst this
          have := hhead d hd
          unfold sortLE at this
          omega

/-! ## Properties of `filterRedundantCIDRs` -/

/-- Parsing masks the base, so every parsed block is valid. -/
theorem parseCIDR_valid (x : Nat × Nat) (hx : x.2 ≤ 32) : ValidBlock (parseCIDR x) := by
  unfold parseCIDR ValidBlock
  have hpos : 0 < (2 : Nat) ^ (32 - x.2) := Nat.pow_pos (by omega)
  rw [land32_mask]
  refine ⟨?_, hx, ?_⟩
  · have h1 : x.1 % 2 ^ 32 / 2 ^ (32 - x.2) * 2 ^ (32 - x.2) ≤ x.1 % 2 ^ 32 :=
      Nat.div_mul_le_self _ _
    have h2 : x.1 % 2 ^ 32 < 2 ^ 32 := Nat.mod_lt _ (by omega)
    omega
  · exact Nat.mul_mod_left _ _

/-- Parsing an already valid (masked) block is the identity. -/
theorem parseCIDR_id (b : Nat × Nat) (hb : ValidBlock b) : parseCIDR b = b := by
  unfold parseCIDR
  rw [land32_mask, Nat.mod_eq_of_lt hb.1, validBlock_base b hb]

/-- Every block surviving the filter is a parsed input block (in
particular, valid). -/
theorem filter_valid (xs : List (Nat × Nat)) (hxs : ∀ x ∈ xs, x.2 ≤ 32) :
    ∀ b ∈ filterRedundantCIDRs xs, ValidBlock b := by
  intro b hb
  unfold filterRedundantCIDRs at hb
  obtain ⟨t, ht, hsub⟩ := keepScan_shape (List.insertionSort sortLE (xs.map parseCIDR)) []
  rw [ht] at hb
  have hmem : b ∈ List.insertionSort sortLE (xs.map parseCIDR) :=
    hsub.mem (by simpa using hb)
  have hmem2 : b ∈ xs.map parseCIDR :=
    (List.perm_insertionSort sortLE (xs.map parseCIDR)).mem_iff.mp hmem
  obtain ⟨x, hx, hpx⟩ := List.mem_map.mp hmem2
  subst hpx
  exact parseCIDR_valid x (hxs x hx)

/-- The filter output is ordered the way the scan consumed it: ascending
prefix length, ties by ascending base address. -/
theorem filter_sorted (xs : List (Nat × Nat)) :
    (filterRedundantCIDRs xs).Pairwise sortLE := by
  unfold filterRedundantCIDRs
  obtain ⟨t, ht, hsub⟩ := keepScan_shape (List.insertionSort sortLE (xs.map parseCIDR)) []
  rw [ht]
  have hsorted : (List.insertionSort sortLE (xs.map parseCIDR)).Pairwise sortLE :=
    List.sorted_insertionSort sortLE (xs.map parseCIDR)
  simpa using List.Pairwise.sublist hsub hsorted

/-- No two blocks surviving the filter have comparable spans. -/
theorem filter_pairwise (xs : List (Nat × Nat)) (hxs : ∀ x ∈ xs, x.2 ≤ 32) :
    (filterRedundantCIDRs xs).Pairwise
      (fun a b => ¬ spanContains a b ∧ ¬ spanContains b a) := by
  unfold filterRedundantCIDRs
  have hvalid : ∀ b ∈ List.insertionSort sortLE (xs.map parseCIDR), ValidBlock b := by
    intro b hb
    have hmem2 : b ∈ xs.map parseCIDR :=
      (List.perm_insertionSort sortLE (xs.map parseCIDR)).mem_iff.mp hb
    obtain ⟨x, hx, hpx⟩ := List.mem_map.mp hmem2
    subst hpx
    exact parseCIDR_valid x (hxs x hx)
  exact keepScan_invariant (List.insertionSort sortLE (xs.map parseCIDR)) []
    (by simp) hvalid (by simp)
    (List.sorted_insertionSort sortLE (xs.map parseCIDR))
    (by simp)

/-- When no candidate is contained in any kept or earlier candidate block,
the scan keeps everything in order. -/
theorem keepScan_all_kept : ∀ rest kept,
    (∀ k ∈ kept, ∀ c ∈ rest, cidrContains k c = false) →
    rest.Pairwise (fun a b => cidrContains a b = false) →
    keepScan kept rest = kept ++ rest := by
  intro rest
  induction rest with
  | nil => intro kept _ _; simp [keepScan]
  | cons c rest ih =>
    intro kept hcross hpair
    obtain ⟨hhead, htail⟩ := List.pairwise_cons.mp hpair
    have hany : kept.any (fun k => cidrContains k c) = false := by
      rw [List.any_eq_false]
      intro k hk
      simp [hcross k hk c (by simp)]
    simp only [keepScan, hany]
    rw [if_neg (by simp)]
    rw [ih (kept ++ [c]) ?_ htail]
    · simp
    · intro k hk d hd
      rcases List.mem_append.mp hk with hk | hk
      · exact hcross k hk d (by simp [hd])
      · have : k = c := by simpa using hk
        subst this
        exact hhead d hd

/-- Applying the filter to its own output returns it unchanged. -/
theorem filter_idem (xs : List (Nat × Nat)) (hxs : ∀ x ∈ xs, x.2 ≤ 32) :
    filterRedundantCIDRs (filterRedundantCIDRs xs) = filterRedundantCIDRs xs := by
  have hvalid := filter_valid xs hxs
  have hsorted := filter_sorted xs
  have hpnc := filter_pairwise xs hxs
  have hmap : (filterRedundantCIDRs xs).map parseCIDR = filterRedundantCIDRs xs := by
    have h1 : ∀ b ∈ filterRedundantCIDRs xs, parseCIDR b = id b :=
      fun b hb => parseCIDR_id b (hvalid b hb)
    rw [List.map_congr_left h1, List.map_id]
  have hsort2 : List.insertionSort sortLE (filterRedundantCIDRs xs) =
      filterRedundantCIDRs xs :=
    List.eq_of_perm_of_sorted (List.perm_insertionSort sortLE _)
      (List.sorted_insertionSort sortLE _) hsorted
  have hnc : (filterRedundantCIDRs xs).Pairwise (fun a b => cidrContains a b = false) := by
    refine List.Pairwise.imp_of_mem ?_ hpnc
    intro a b ha hb hab
    have := (cidrContains_iff a b (hvalid a ha) (hvalid b hb)).not.mpr hab.1
    revert this
    rcases cidrContains a b with _ | _ <;> simp
  have hgoal : filterRedundantCIDRs (filterRedundantCIDRs xs) =
      keepScan [] (List.insertionSort sortLE ((filterRedundantCIDRs xs).map parseCIDR)) := rfl
  rw [hgoal, hmap, hsort2, keepScan_all_kept (filterRedundantCIDRs xs) [] (by simp) hnc]
  simp

/-! ## Behaviour of the single best-fit XOR conversion -/

theorem bitsLenAux_le : ∀ fuel x, bitsLenAux fuel x ≤ fuel := by
  intro fuel
  induction fuel with
  | zero => intro x; simp [bitsLenAux]
  | succ f ih =>
    intro x
    simp only [bitsLenAux]
    split
    · omega
    · have := ih (x / 2)
      omega

theorem bitsLen32_le (x : Nat) : bitsLen32 x ≤ 32 := bitsLenAux_le 32 x

/-- `bits.Len32` of the low mask of `k` ones is `k`. -/
theorem bitsLenAux_pow_sub_one : ∀ fuel k, k ≤ fuel →
    bitsLenAux fuel (2 ^ k - 1) = k := by
  intro fuel
  induction fuel with
  | zero =>
    intro k hk
    have hk0 : k = 0 := by omega
    subst hk0
    simp [bitsLenAux]
  | succ f ih =>
    intro k hk
    match k with
    | 0 => simp [bitsLenAux]
    | k' + 1 =>
      have hp : (2 : Nat) ^ (k' + 1) = 2 * 2 ^ k' := by rw [Nat.pow_succ]; ring
      have hpos : 0 < (2 : Nat) ^ k' := Nat.pow_pos (by omega)
      have hne : (2 : Nat) ^ (k' + 1) - 1 ≠ 0 := by omega
      have hd2 : ((2 : Nat) ^ (k' + 1) - 1) / 2 = 2 ^ k' - 1 := by omega
      simp only [bitsLenAux, hne, if_false, hd2, ih k' (by omega)]

/-- The Go expression `(1 << (32 - prefixLength)) - 1` on `uint32` equals
the low mask `2 ^ len - 1`, including the wrap-around case `len = 32` where
the shift yields `0` and the subtraction wraps to `0xFFFFFFFF`. -/
theorem lowmask_value (len : Nat) (hlen : len ≤ 32) :
    sub32 (shl32 1 len) 1 = 2 ^ len - 1 := by
  unfold sub32 shl32
  rcases Nat.lt_or_ge len 32 with h | h
  · have h1 : (2 : Nat) ^ len < 2 ^ 32 := Nat.pow_lt_pow_right (by omega) h
    have h2 : 0 < (2 : Nat) ^ len := Nat.pow_pos (by omega)
    rw [Nat.one_mul, Nat.mod_eq_of_lt h1]
    omega
  · have hl : len = 32 := by omega
    subst hl
    norm_num

/-- Complementing the low mask of `len` ones gives the high mask. -/
theorem comp_lowmask (len : Nat) (hlen : len ≤ 32) :
    lxor32 (2 ^ len - 1) 0xFFFFFFFF = 2 ^ 32 - 2 ^ len := by
  unfold lxor32
  rw [show (0xFFFFFFFF : Nat) = 2 ^ 32 - 1 by norm_num]
  rw [bitop_xor_ones 32 (2 ^ len - 1)]
  have h1 : 0 < (2 : Nat) ^ len := Nat.pow_pos (by omega)
  have h2 : (2 : Nat) ^ len ≤ 2 ^ 32 := Nat.pow_le_pow_right (by omega) hlen
  rw [Nat.mod_eq_of_lt (by omega)]
  omega

/-- The network address computed by the XOR conversion is the start address
with its low `bits.Len32(start ^ end)` bits cleared; the prefix length is
the complement of that length. -/
theorem generateCIDRxor_eq (s e : Nat) (hs : s < 2 ^ 32) :
    generateCIDRxor s e =
      (s / 2 ^ bitsLen32 (lxor32 s e) * 2 ^ bitsLen32 (lxor32 s e),
        32 - bitsLen32 (lxor32 s e)) := by
  have hlen : bitsLen32 (lxor32 s e) ≤ 32 := bitsLen32_le _
  have hsub : 32 - (32 - bitsLen32 (lxor32 s e)) = bitsLen32 (lxor32 s e) := by omega
  show (land32 s (lxor32 (sub32 (shl32 1 (32 - (32 - bitsLen32 (lxor32 s e)))) 1) 0xFFFFFFFF),
      32 - bitsLen32 (lxor32 s e)) = _
  rw [hsub, lowmask_value _ hlen, comp_lowmask _ hlen]
  unfold land32
  rw [bitop_and_high 32 _ s hlen, Nat.mod_eq_of_lt hs]

/-- Every block the XOR conversion emits is a valid (aligned) block. -/
theorem generateCIDRxor_valid (s e : Nat) (hs : s < 2 ^ 32) :
    ValidBlock (generateCIDRxor s e) := by
  rw [generateCIDRxor_eq s e hs]
  have hlen : bitsLen32 (lxor32 s e) ≤ 32 := bitsLen32_le _
  refine ⟨?_, ?_, ?_⟩
  · show s / 2 ^ bitsLen32 (lxor32 s e) * 2 ^ bitsLen32 (lxor32 s e) < 2 ^ 32
    have h1 : s / 2 ^ bitsLen32 (lxor32 s e) * 2 ^ bitsLen32 (lxor32 s e) ≤ s :=
      Nat.div_mul_le_self _ _
    omega
  · show 32 - bitsLen32 (lxor32 s e) ≤ 32
    omega
  · show s / 2 ^ bitsLen32 (lxor32 s e) * 2 ^ bitsLen32 (lxor32 s e) %
        2 ^ (32 - (32 - bitsLen32 (lxor32 s e))) = 0
    have hsub : 32 - (32 - bitsLen32 (lxor32 s e)) = bitsLen32 (lxor32 s e) := by omega
    rw [hsub]
    exact Nat.mul_mod_left _ _

/-- On an aligned block a valid block's base address is untouched by the
mask of the spec's alignment invariant. -/
theorem aligned_land_notmask (b : Nat × Nat) (hb : ValidBlock b) :
    land32 b.1 (lxor32 (mask32 b.2) 0xFFFFFFFF) = 0 := by
  rw [notmask32_eq]
  unfold land32
  rw [bitop_and_low 32 (32 - b.2) b.1 (by omega)]
  exact hb.2.2

/-- XOR of the two ends of an aligned power-of-two range is the low mask of
the range's host bits. -/
theorem lxor32_aligned_range (q k : Nat) (hk : k ≤ 32) :
    lxor32 (q * 2 ^ k) (q * 2 ^ k + (2 ^ k - 1)) = 2 ^ k - 1 := by
  unfold lxor32
  have hpos : 0 < (2 : Nat) ^ k := Nat.pow_pos (by omega)
  have h := bitop_xor_high 32 k q 0 (2 ^ k - 1) hk (by omega) (by omega)
  rw [Nat.add_zero] at h
  rw [h, bitop_xor_zero_left k (2 ^ k - 1)]
  exact Nat.mod_eq_of_lt (by omega)

/-- The XOR conversion on an aligned power-of-two range returns exactly
that range as a block. -/
theorem generateCIDRxor_aligned (s k : Nat) (hk : k ≤ 32) (hs : s < 2 ^ 32)
    (hal : s % 2 ^ k = 0) :
    generateCIDRxor s (s + (2 ^ k - 1)) = (s, 32 - k) := by
  have hpos : 0 < (2 : Nat) ^ k := Nat.pow_pos (by omega)
  have hq : s / 2 ^ k * 2 ^ k = s := (div_mul_eq_self_iff s _).mpr hal
  have hdiff : lxor32 s (s + (2 ^ k - 1)) = 2 ^ k - 1 := by
    have h1 : s = s / 2 ^ k * 2 ^ k := hq.symm
    calc lxor32 s (s + (2 ^ k - 1))
        = lxor32 (s / 2 ^ k * 2 ^ k) (s / 2 ^ k * 2 ^ k + (2 ^ k - 1)) := by rw [← h1]
      _ = 2 ^ k - 1 := lxor32_aligned_range (s / 2 ^ k) k hk
  rw [generateCIDRxor_eq s _ hs, hdiff]
  unfold bitsLen32
  rw [bitsLenAux_pow_sub_one 32 k hk, hq]

/-! ## The multi-block loop on aligned ranges and singleton results -/

/-- On an aligned power-of-two range that does not reach `0xFFFFFFFF`, the
outer loop takes the whole range in one block and exits on the next pass. -/
theorem genLoop_aligned (s k : Nat) (hk : k ≤ 31) (hal : s % 2 ^ k = 0)
    (hlt : s + 2 ^ k < 2 ^ 32) :
    ∀ fuel, genLoop (s + (2 ^ k - 1)) (fuel + 2) s [] = some [(s, 32 - k)] := by
  intro fuel
  have hpos : 0 < (2 : Nat) ^ k := Nat.pow_pos (by omega)
  have hklt : (2 : Nat) ^ k < 2 ^ 32 := Nat.pow_lt_pow_right (by omega) (by omega)
  have hs32 : s < 2 ^ 32 := by omega
  have hse : s ≤ s + (2 ^ k - 1) := by omega
  have hinner : innerLoop s (s + (2 ^ k - 1)) 32 = 32 - k - 1 := by
    apply innerLoop_eq_of
    · omega
    · by_cases hk31 : k = 31
      · left; omega
      · right
        rcases hb : okCheck s (s + (2 ^ k - 1)) (32 - k - 1) with _ | _
        · rfl
        · exfalso
          have hconj := (okCheck_iff s (s + (2 ^ k - 1)) (32 - k - 1) hs32).mp hb
          have h1 : (32 : Nat) - (32 - k - 1) = k + 1 := by omega
          rw [h1] at hconj
          have hp : (2 : Nat) ^ (k + 1) = 2 * 2 ^ k := by rw [Nat.pow_succ]; ring
          omega
    · intro j h1 h2
      rw [okCheck_iff _ _ _ hs32]
      have hkj : 32 - j ≤ k := by omega
      have hdvd : (2 : Nat) ^ (32 - j) ∣ s :=
        dvd_trans (pow_dvd_pow 2 hkj) (Nat.dvd_of_mod_eq_zero hal)
      have hle : (2 : Nat) ^ (32 - j) ≤ 2 ^ k := Nat.pow_le_pow_right (by omega) hkj
      exact ⟨(Nat.dvd_iff_mod_eq_zero).mp hdvd, by omega⟩
  have hm : innerLoop s (s + (2 ^ k - 1)) 32 + 1 = 32 - k := by omega
  have hadd : add32 s (shl32 1 (32 - (32 - k))) = s + 2 ^ k := by
    unfold add32 shl32
    have h1 : 32 - (32 - k) = k := by omega
    rw [h1, Nat.one_mul, Nat.mod_eq_of_lt hklt, Nat.mod_eq_of_lt hlt]
  simp only [genLoop, if_pos hse]
  rw [hm, hadd]
  rw [if_neg (by omega)]
  simp

/-- A terminating run that emits exactly one block can only happen on an
aligned power-of-two range (the emitted block is that range). -/
theorem genLoop_singleton (s e : Nat) (hs : s < 2 ^ 32) :
    ∀ fuel b, genLoop e fuel s [] = some [b] → isAlignedRange s e := by
  intro fuel
  match fuel with
  | 0 => intro b h; cases h
  | f + 1 =>
    intro b h
    simp only [genLoop] at h
    split at h
    case isFalse hse =>
      simp at h
    case isTrue hse =>
      obtain ⟨t, ht⟩ := genLoop_prefix e f _ _ _ h
      have hlen := congrArg List.length ht
      simp at hlen
      subst hlen
      simp only [List.nil_append, List.append_nil] at ht h
      have hok32 : okCheck s e 32 = true := okCheck_32 s e hs hse
      have hinner32 : innerLoop s e 32 = innerLoop s e 31 := by
        simp [innerLoop, hok32]
      have hmle : innerLoop s e 31 ≤ 31 := innerLoop_le s e 31
      have hok : okCheck s e (innerLoop s e 32 + 1) = true := by
        rw [hinner32]
        exact innerLoop_ok s e 31 hok32
      have hconj := (okCheck_iff s e (innerLoop s e 32 + 1) hs).mp hok
      have hk31 : 32 - (innerLoop s e 32 + 1) ≤ 31 := by omega
      have hklt : (2 : Nat) ^ (32 - (innerLoop s e 32 + 1)) < 2 ^ 32 :=
        Nat.pow_lt_pow_right (by omega) (by omega)
      have hpos : 0 < (2 : Nat) ^ (32 - (innerLoop s e 32 + 1)) := Nat.pow_pos (by omega)
      have hshl : shl32 1 (32 - (innerLoop s e 32 + 1)) =
          2 ^ (32 - (innerLoop s e 32 + 1)) := by
        unfold shl32
        rw [Nat.one_mul, Nat.mod_eq_of_lt hklt]
      have hnext : ¬ add32 s (shl32 1 (32 - (innerLoop s e 32 + 1))) ≤ e := by
        match f with
        | 0 => cases h
        | f' + 1 =>
          simp only [genLoop] at h
          split at h
          case isTrue hse2 =>
            exfalso
            obtain ⟨t', ht'⟩ := genLoop_prefix e f' _ _ _ h
            have hlen' := congrArg List.length ht'
            simp at hlen'
          case isFalse hse2 => exact hse2
      rw [hshl] at hnext
      unfold add32 at hnext
      refine ⟨32 - (innerLoop s e 32 + 1), by omega, hconj.1, ?_⟩
      omega

/-! ## Behaviour of the record matcher -/

/-- `strings.Contains` holds exactly when the needle occurs contiguously in
the haystack. -/
theorem containsSub_iff : ∀ text sub : List Char,
    containsSub text sub = true ↔ ∃ pre post, text = pre ++ sub ++ post := by
  intro text
  induction text with
  | nil =>
    intro sub
    simp only [containsSub]
    constructor
    · intro h
      have hsub : sub = [] := List.isEmpty_iff.mp h
      exact ⟨[], [], by simp [hsub]⟩
    · rintro ⟨pre, post, h⟩
      have h2 := h.symm
      rw [List.append_assoc] at h2
      rcases List.append_eq_nil.mp h2 with ⟨hpre, hrest⟩
      rcases List.append_eq_nil.mp hrest with ⟨hsub, _⟩
      simp [hsub]
  | cons c rest ih =>
    intro sub
    simp only [containsSub, Bool.or_eq_true, ih]
    constructor
    · rintro (hp | ⟨pre, post, h⟩)
      · obtain ⟨t, ht⟩ := List.isPrefixOf_iff_prefix.mp hp
        exact ⟨[], t, by simp [← ht]⟩
      · exact ⟨c :: pre, post, by simp [h]⟩
    · rintro ⟨pre, post, h⟩
      match pre with
      | [] =>
        left
        rw [ List.isPrefixOf_iff_prefix]
        exact ⟨post, by simpa using h.symm⟩
      | p :: pre' =>
        right
        have h2 : c :: rest = p :: (pre' ++ sub ++ post) := by simpa using h
        exact ⟨pre', post, (List.cons.injEq _ _ _ _).mp h2 |>.2⟩

/-- The keyword loop finds a match exactly when some non-empty keyword of
the list occurs in the text (empty keywords are skipped). -/
theorem anyKeyword_iff : ∀ (kws : List (List Char)) (text : List Char),
    anyKeyword kws text = true ↔
      ∃ kw ∈ kws, kw ≠ [] ∧ containsSub text kw = true := by
  intro kws
  induction kws with
  | nil => intro text; simp [anyKeyword]
  | cons kw rest ih =>
    intro text
    simp only [anyKeyword]
    by_cases hkw : kw.isEmpty
    · have hkw' : kw = [] := List.isEmpty_iff.mp hkw
      rw [if_pos hkw, ih]
      constructor
      · rintro ⟨x, hx, hne, hc⟩
        exact ⟨x, by simp [hx], hne, hc⟩
      · rintro ⟨x, hx, hne, hc⟩
        rcases List.mem_cons.mp hx with hx | hx
        · exact absurd (hx.trans hkw') hne
        · exact ⟨x, hx, hne, hc⟩
    · rw [if_neg hkw]
      have hkwne : kw ≠ [] := fun h => hkw (by simp [h])
      by_cases hc : containsSub text kw = true
      · rw [if_pos hc]
        simp only [true_iff]
        exact ⟨kw, by simp, hkwne, hc⟩
      · rw [if_neg hc, ih]
        constructor
        · rintro ⟨x, hx, hne, hcx⟩
          exact ⟨x, by simp [hx], hne, hcx⟩
        · rintro ⟨x, hx, hne, hcx⟩
          rcases List.mem_cons.mp hx with hx | hx
          · subst hx; exact absurd hcx hc
          · exact ⟨x, hx, hne, hcx⟩

/-- The keyword part of the accept decision, declaratively. -/
theorem keywordPart_iff (kws : List (List Char)) (text : List Char) :
    ((if (kws.map toLowerStr).isEmpty then true
      else anyKeyword (kws.map toLowerStr) text) = true) ↔
      (kws = [] ∨ ∃ kw ∈ kws, kw ≠ [] ∧ containsSub text (toLowerStr kw) = true) := by
  by_cases hk : kws = []
  · subst hk
    simp
  · have hne : (kws.map toLowerStr).isEmpty = false := by
      rcases kws with _ | ⟨a, t⟩
      · exact absurd rfl hk
      · simp [toLowerStr]
    rw [if_neg (by simp [hne]), anyKeyword_iff]
    constructor
    · rintro ⟨kw', hmem, hkne, hc⟩
      obtain ⟨kw, hkw, rfl⟩ := List.mem_map.mp hmem
      exact Or.inr ⟨kw, hkw, fun h => hkne (by simp [h, toLowerStr]), hc⟩
    · rintro (h | ⟨kw, hkw, hne2, hc⟩)
      · exact absurd h hk
      · refine ⟨toLowerStr kw, List.mem_map_of_mem _ hkw, ?_, hc⟩
        intro h
        exact hne2 (List.map_eq_nil_iff.mp h)

/-! ## The claims -/

/-- C1: the claim asserts exact coverage for every `0 ≤ start ≤ end ≤
0xFFFFFFFF`.  The code cannot satisfy it at the upper boundary: for
`end = 0xFFFFFFFF` the advance `start += 2^blockSizeBits` wraps around in
`uint32` arithmetic to a value that is again `≤ end`, so the loop of
`generateCIDR` (ripe-country-list.go) never exits and nothing is returned —
here evaluated at `start = end = 0xFFFFFFFF`, where the claim demands the
single block `255.255.255.255/32`.  No amount of fuel makes the loop
terminate. -/
theorem ripe_exact_cover_fails_at_top :
    ∀ fuel, generateCIDRripe 0xFFFFFFFF 0xFFFFFFFF fuel = none := by
  intro fuel
  exact genLoop_none_top fuel 0xFFFFFFFF [] (by norm_num)

/-- C3: the claim asserts the loop terminates for every valid range,
including `end = 0xFFFFFFFF`, and that `decompose(0, 0xFFFFFFFF)` is one
`/0` block.  The code violates both parts: with `end = 0xFFFFFFFF` the
loop never returns for any amount of fuel (the `uint32` advance wraps
around past `0xFFFFFFFF`), and the first emitted block of the run on
`(0, 0xFFFFFFFF)` is a `/1` — the inner loop's `maxSize++` makes a prefix
length of 0 unreachable. -/
theorem ripe_decompose_diverges_on_full_range :
    (∀ fuel, generateCIDRripe 0 0xFFFFFFFF fuel = none) ∧
    innerLoop 0 0xFFFFFFFF 32 + 1 = 1 := by
  constructor
  · intro fuel
    exact genLoop_none_top fuel 0 [] (by norm_num)
  · decide

/-- C6: every CIDR block emitted by either conversion is aligned to its
prefix: the base ANDed with the complement of the prefix mask is zero —
for every terminating run of the multi-block `generateCIDR`
(ripe-country-list.go) and for the single block of the XOR `generateCIDR`
(chicha-whois.go). -/
theorem generateCIDR_alignment :
    (∀ s e fuel l, s < 2 ^ 32 → e < 2 ^ 32 → generateCIDRripe s e fuel = some l →
      ∀ b ∈ l, land32 b.1 (lxor32 (mask32 b.2) 0xFFFFFFFF) = 0) ∧
    (∀ s e, s < 2 ^ 32 → e < 2 ^ 32 →
      land32 (generateCIDRxor s e).1
        (lxor32 (mask32 (generateCIDRxor s e).2) 0xFFFFFFFF) = 0) := by
  constructor
  · intro s e fuel l hs _ h b hb
    have hfacts := genLoop_blocks e fuel s [] l hs (by simp) h b hb
    obtain ⟨hok, hm1, hm2, hblt⟩ := hfacts
    have hconj := (okCheck_iff b.1 e b.2 hblt).mp hok
    exact aligned_land_notmask b ⟨hblt, hm2, hconj.1⟩
  · intro s e hs _
    exact aligned_land_notmask _ (generateCIDRxor_valid s e hs)

/-- C6 witness: alignment evaluated on the concrete range
`10.0.0.2 – 10.0.0.5` for both conversions. -/
theorem generateCIDR_alignment_witness :
    (∀ b ∈ [((0x0A000002 : Nat), (31 : Nat)), (0x0A000004, 31)],
      land32 b.1 (lxor32 (mask32 b.2) 0xFFFFFFFF) = 0) ∧
    land32 (generateCIDRxor 0x0A000002 0x0A000005).1
      (lxor32 (mask32 (generateCIDRxor 0x0A000002 0x0A000005).2) 0xFFFFFFFF) = 0 :=
  ⟨generateCIDR_alignment.1 0x0A000002 0x0A000005 3 _ (by norm_num) (by norm_num)
      (by decide),
    generateCIDR_alignment.2 0x0A000002 0x0A000005 (by norm_num) (by norm_num)⟩

/-- C8 (amended): for a parsed range with `start > end` the multi-block
`generateCIDR` (ripe-country-list.go) emits no blocks — its loop body never
runs and the empty list is returned, processing continuing normally.  (The
claim's further assertions fail on the code: no diagnostic is printed for
an inverted range, and the single-block XOR conversion does not discard
inverted ranges at all — see the counterexample.) -/
theorem startGreaterEnd_discarded_multiblock :
    ∀ s e fuel, e < s → generateCIDRripe s e (fuel + 1) = some [] := by
  intro s e fuel h
  unfold generateCIDRripe
  simp only [genLoop]
  rw [if_neg (by omega)]

/-- C8 witness: the inverted range `5.0.0.0 – 2.0.0.0` yields the empty
block list from the multi-block conversion. -/
theorem startGreaterEnd_discarded_multiblock_witness :
    generateCIDRripe 0x05000000 0x02000000 1 = some [] :=
  startGreaterEnd_discarded_multiblock 0x05000000 0x02000000 0 (by norm_num)

/-- C8 counterexample: the claim says no CIDR block is emitted for a range
with `start > end`; the single best-fit `generateCIDR` (chicha-whois.go)
nevertheless emits the block `0.0.0.0/5` for the parsed inverted range
`5.0.0.0 – 2.0.0.0` (a non-empty string that its callers append to the
result list). -/
theorem startGreaterEnd_counterexample :
    (0x02000000 : Nat) < 0x05000000 ∧
    generateCIDRxor 0x05000000 0x02000000 = (0, 5) :=
  ⟨by norm_num, by decide⟩

/-- C4: after `filterRedundantCIDRs` no surviving block's address span
contains another surviving block's span, in either direction — this rules
out both exact duplicates (span containment is reflexive) and nested
subnets. -/
theorem filter_no_containment (xs : List (Nat × Nat))
    (hxs : ∀ x ∈ xs, x.1 < 2 ^ 32 ∧ x.2 ≤ 32) :
    (filterRedundantCIDRs xs).Pairwise
      (fun a b => ¬ spanContains a b ∧ ¬ spanContains b a) :=
  filter_pairwise xs (fun x hx => (hxs x hx).2)

/-- C4 witness: a duplicate and a nested subnet on a concrete input. -/
theorem filter_no_containment_witness :
    (∀ x ∈ [((0x0A000000 : Nat), (24 : Nat)), (0x0A000000, 24), (0x0A000000, 25),
        (0x0B000000, 24)], x.1 < 2 ^ 32 ∧ x.2 ≤ 32) ∧
    (filterRedundantCIDRs
        [(0x0A000000, 24), (0x0A000000, 24), (0x0A000000, 25), (0x0B000000, 24)]).Pairwise
      (fun a b => ¬ spanContains a b ∧ ¬ spanContains b a) :=
  ⟨by decide, filter_no_containment _ (by decide)⟩

/-- C5: the redundancy filter is idempotent — applied to its own output it
returns the same blocks in the same order. -/
theorem filter_idempotent (xs : List (Nat × Nat))
    (hxs : ∀ x ∈ xs, x.1 < 2 ^ 32 ∧ x.2 ≤ 32) :
    filterRedundantCIDRs (filterRedundantCIDRs xs) = filterRedundantCIDRs xs :=
  filter_idem xs (fun x hx => (hxs x hx).2)

/-- C5 witness: idempotence on a concrete mixed input. -/
theorem filter_idempotent_witness :
    (∀ x ∈ [((0x0A000000 : Nat), (24 : Nat)), (0x0A000000, 25), (0x0A010000, 24),
        (0x0A000000, 24)], x.1 < 2 ^ 32 ∧ x.2 ≤ 32) ∧
    filterRedundantCIDRs (filterRedundantCIDRs
        [(0x0A000000, 24), (0x0A000000, 25), (0x0A010000, 24), (0x0A000000, 24)]) =
      filterRedundantCIDRs
        [(0x0A000000, 24), (0x0A000000, 25), (0x0A010000, 24), (0x0A000000, 24)] :=
  ⟨by decide, filter_idempotent _ (by decide)⟩

/-- C7 counterexample: the claim says the filter's returned list is sorted
by ascending numeric base address.  On the input `10.1.0.0/24, 10.0.0.0/25`
the filter keeps both blocks in scan order — the /24 with the larger base
first — so the output is not sorted by address. -/
theorem filter_address_order_counterexample :
    filterRedundantCIDRs [(0x0A010000, 24), (0x0A000000, 25)] =
      [(0x0A010000, 24), (0x0A000000, 25)] ∧
    ¬ List.Pairwise (fun a b : Nat × Nat => a.1 ≤ b.1)
        (filterRedundantCIDRs [(0x0A010000, 24), (0x0A000000, 25)]) :=
  ⟨by decide, by decide⟩

/-- C7 (amended): the list `filterRedundantCIDRs` returns is in the order
the containment scan consumed it: ascending prefix length with ties broken
by ascending base address — not re-sorted by numeric address (the by-address
ordering of the final ACL is produced later by the callers). -/
theorem filter_output_order (xs : List (Nat × Nat)) :
    (filterRedundantCIDRs xs).Pairwise sortLE :=
  filter_sorted xs

/-- C9 counterexample: as stated, the claim's keyword condition holds for a
keyword list consisting of the empty string — the empty string is a
substring of every block text — yet the code rejects the block, because the
keyword loop of `extractCIDRsByKeywordsAndCountry` skips empty keywords. -/
theorem keyword_country_match_counterexample :
    ¬ (blockAccepted [] [[]] [("inetnum: 1.2.3.0 - 1.2.3.255".data)] = true ↔
        ((([] : List Char) = [] ∨
            countryMatches [] [("inetnum: 1.2.3.0 - 1.2.3.255".data)]) ∧
         (([[]] : List (List Char)) = [] ∨
           ∃ kw ∈ ([[]] : List (List Char)),
             containsSub
               (toLowerStr (List.intercalate ['\n']
                 [("inetnum: 1.2.3.0 - 1.2.3.255".data)]))
               (toLowerStr kw) = true))) := by
  decide

/-- C9 (amended): `extractCIDRsByKeywordsAndCountry` accepts a block if and
only if (i) the country filter is empty or the block's `country:` attribute
equals it case-insensitively (a block without a `country:` line never
matches a non-empty filter), and (ii) the keyword list is empty or the
lowercased block text contains at least one non-empty keyword as a
substring (OR semantics); empty keywords cannot produce a match. -/
theorem keyword_country_accept_iff (cc : List Char) (kws : List (List Char))
    (lines : List (List Char)) :
    blockAccepted cc kws lines = true ↔
      ((cc = [] ∨ countryMatches cc lines) ∧
       (kws = [] ∨ ∃ kw ∈ kws, kw ≠ [] ∧
         containsSub (toLowerStr (List.intercalate ['\n'] lines))
           (toLowerStr kw) = true)) := by
  simp only [blockAccepted]
  by_cases hcc : cc = []
  · subst hcc
    rw [if_pos (by simp [toUpperStr])]
    rw [keywordPart_iff]
    simp
  · have hccE : (toUpperStr cc).isEmpty = false := by
      rcases cc with _ | ⟨a, t⟩
      · exact absurd rfl hcc
      · simp [toUpperStr]
    rw [if_neg (by simp [hccE])]
    by_cases hcl : (scanLines lines ([], [])).2 = []
    · rw [if_pos (by simp [hcl])]
      simp only [Bool.false_eq_true, false_iff]
      rintro ⟨h1 | h1, _⟩
      · exact hcc h1
      · exact h1.1 hcl
    · rw [if_neg (by simp [List.isEmpty_iff, hcl])]
      by_cases hlen : (goFields (scanLines lines ([], [])).2).length < 2
      · rw [if_pos hlen]
        simp only [Bool.false_eq_true, false_iff]
        rintro ⟨h1 | h1, _⟩
        · exact hcc h1
        · have h2 := h1.2.1
          omega
      · rw [if_neg hlen]
        by_cases heq : toUpperStr ((goFields (scanLines lines ([], [])).2).getD 1 []) =
            toUpperStr cc
        · rw [if_pos (beq_iff_eq.mpr heq)]
          rw [keywordPart_iff]
          have hcm : countryMatches cc lines := ⟨hcl, by omega, heq⟩
          simp [hcm]
        · rw [if_neg (fun h => heq (beq_iff_eq.mp h))]
          simp only [Bool.false_eq_true, false_iff]
          rintro ⟨h1 | h1, _⟩
          · exact hcc h1
          · exact heq h1.2.2

/-- C10: a non-empty keyword list consisting only of empty strings matches
no block at all — the keyword loop skips empty keywords with `continue`, so
the per-block match flag never becomes true. -/
theorem empty_keywords_never_match (cc : List Char) (kws : List (List Char))
    (lines : List (List Char)) (hne : kws ≠ []) (hall : ∀ kw ∈ kws, kw = []) :
    blockAccepted cc kws lines = false := by
  have hmapne : (kws.map toLowerStr).isEmpty = false := by
    rcases kws with _ | ⟨a, t⟩
    · exact absurd rfl hne
    · simp [toLowerStr]
  have hkp : (if (kws.map toLowerStr).isEmpty then true
      else anyKeyword (kws.map toLowerStr)
        (toLowerStr (List.intercalate ['\n'] lines))) = false := by
    rw [if_neg (by simp [hmapne])]
    rcases h : anyKeyword (kws.map toLowerStr)
        (toLowerStr (List.intercalate ['\n'] lines)) with _ | _
    · rfl
    · exfalso
      obtain ⟨kw', hmem, hne', _⟩ := (anyKeyword_iff _ _).mp h
      obtain ⟨kw, hkw, rfl⟩ := List.mem_map.mp hmem
      exact hne' (by simp [hall kw hkw, toLowerStr])
  simp only [blockAccepted]
  rw [hkp]
  simp

/-- C10 witness: the keyword list `[""]` rejects a block that would match
its country filter. -/
theorem empty_keywords_never_match_witness :
    ([[]] : List (List Char)) ≠ [] ∧
    blockAccepted ("RU".data) [[]] [("country: RU".data)] = false :=
  ⟨by decide, empty_keywords_never_match ("RU".data) [[]] [("country: RU".data)]
      (by decide) (by decide)⟩

/-- C2 counterexample: the claim says the two conversions agree exactly on
ranges that are aligned power-of-two blocks.  The range
`128.0.0.0 – 255.255.255.255` is such a block (`128.0.0.0/1`), yet the two
do not agree on it: the multi-block `generateCIDR` (ripe-country-list.go)
never returns on any range ending at `0xFFFFFFFF` (its `uint32` advance
wraps around), so no amount of fuel produces the single block the XOR
conversion yields. -/
theorem xor_vs_multiblock_counterexample :
    isAlignedRange 0x80000000 0xFFFFFFFF ∧
    ¬ ripeComputes 0x80000000 0xFFFFFFFF [generateCIDRxor 0x80000000 0xFFFFFFFF] := by
  constructor
  · exact ⟨31, by norm_num, by norm_num, by norm_num⟩
  · rintro ⟨fuel, h⟩
    unfold generateCIDRripe at h
    rw [genLoop_none_top fuel 0x80000000 [] (by norm_num)] at h
    cases h

/-- C2 (amended): the two range→CIDR implementations are not equivalent.
On the misaligned range `10.0.0.2 – 10.0.0.5` the XOR single-block
conversion returns `10.0.0.0/29`, which covers the address `10.0.0.0`
outside the range, while the multi-block conversion returns
`10.0.0.2/31, 10.0.0.4/31`, covering exactly the range.  In general, for
`start ≤ end < 2^32` the multi-block conversion terminates with exactly the
XOR conversion's single block if and only if the range is an aligned
power-of-two block that does not end at `0xFFFFFFFF` (on aligned blocks
ending there the multi-block loop never returns). -/
theorem xor_vs_multiblock :
    (generateCIDRxor 0x0A000002 0x0A000005 = (0x0A000000, 29) ∧
     covered 0x0A000000 (generateCIDRxor 0x0A000002 0x0A000005) ∧
     ¬ ((0x0A000002 : Nat) ≤ 0x0A000000) ∧
     generateCIDRripe 0x0A000002 0x0A000005 3 =
       some [(0x0A000002, 31), (0x0A000004, 31)] ∧
     (∀ x, (covered x (0x0A000002, 31) ∨ covered x (0x0A000004, 31)) ↔
        (0x0A000002 ≤ x ∧ x ≤ 0x0A000005))) ∧
    (∀ s e, s ≤ e → e < 2 ^ 32 →
      (ripeComputes s e [generateCIDRxor s e] ↔
        isAlignedRange s e ∧ e ≠ 0xFFFFFFFF)) := by
  constructor
  · refine ⟨by decide, by decide, by norm_num, by decide, ?_⟩
    intro x
    simp only [covered, spanHi]
    norm_num
    omega
  · intro s e hse he
    constructor
    · rintro ⟨fuel, h⟩
      have hs : s < 2 ^ 32 := by omega
      unfold generateCIDRripe at h
      refine ⟨genLoop_singleton s e hs fuel _ h, ?_⟩
      intro heq
      subst heq
      rw [genLoop_none_top fuel s [] hs] at h
      cases h
    · rintro ⟨⟨k, hk32, hal, hee⟩, hne⟩
      have hpos : 0 < (2 : Nat) ^ k := Nat.pow_pos (by omega)
      have hk31 : k ≤ 31 := by
        by_contra hcon
        have hk' : k = 32 := by omega
        subst hk'
        have hdvd : (2 : Nat) ^ 32 ∣ s := Nat.dvd_of_mod_eq_zero hal
        have hs0 : s = 0 := Nat.eq_zero_of_dvd_of_lt hdvd (by omega)
        subst hs0
        exact hne (by omega)
      have hslt : s + 2 ^ k < 2 ^ 32 := by omega
      subst hee
      have hxor := generateCIDRxor_aligned s k (by omega) (by omega) hal
      rw [hxor]
      exact ⟨2, by unfold generateCIDRripe; exact genLoop_aligned s k hk31 hal hslt 0⟩

/-- C2 witness: the aligned /24 block `10.0.0.0 – 10.0.0.255` is computed
identically by both conversions. -/
theorem xor_vs_multiblock_witness :
    ripeComputes 0x0A000000 0x0A0000FF [generateCIDRxor 0x0A000000 0x0A0000FF] :=
  (xor_vs_multiblock.2 0x0A000000 0x0A0000FF (by norm_num) (by norm_num)).mpr
    ⟨⟨8, by norm_num, by norm_num, by norm_num⟩, by norm_num⟩
